import Mathlib

/-!
Verification of gitbrute (gitbrute.go): a brute-forcer that searches for
author/committer timestamp shifts making a commit object's SHA-1 digest,
in hex, start with a requested string.

Bytes are modelled as natural numbers (ASCII codes); byte buffers as
`List Nat`.  Machine `int64` arithmetic is modelled on `Int` with explicit
wrap-around where the source can overflow.
-/

set_option maxRecDepth 100000

/-- ASCII bytes of a string literal (all literals used here are ASCII). -/
def strB (s : String) : List Nat := s.toList.map Char.toNat

/-- `startsWithB l p` is `bytes.HasPrefix(l, p)` / `strings.HasPrefix`:
`p` is an initial segment of `l`. -/
def startsWithB : List Nat → List Nat → Bool
  | _, [] => true
  | [], _ :: _ => false
  | a :: as, b :: bs => a == b && startsWithB as bs

/-- `strings.ToLower` restricted to ASCII (the only case exercised here). -/
def toLowerB (l : List Nat) : List Nat :=
  l.map (fun c => if 65 ≤ c && c ≤ 90 then c + 32 else c)

/-! ## Hex encoder (`hexInPlace`, gitbrute.go lines 199-208) -/

/-- The lookup table `const hex = "0123456789abcdef"`. -/
def hexTable : List Nat := strB "0123456789abcdef"

/-- `hex[n]` for a nibble `n`. -/
def hexdig (n : Nat) : Nat := hexTable.getD n 0

/-- The loop of `hexInPlace` on the backing array `arr`: for
`i = n-1 down to 0`, read byte `b := arr[i]` and write
`arr[2i] := hex[b>>4]`, `arr[2i+1] := hex[b&0xf]`.
`hexLoopAux i arr` performs the iterations for indices `i-1 … 0`
(so `hexLoopAux n arr` is the whole loop). -/
def hexLoopAux : Nat → List Nat → List Nat
  | 0, arr => arr
  | i+1, arr =>
      let b := arr.getD i 0
      hexLoopAux i ((arr.set (2*i) (hexdig (b / 16))).set (2*i+1) (hexdig (b % 16)))

/-- `hexInPlace` on a slice of length `n` whose backing array is `arr`
(so the Go precondition `cap(v) ≥ 2*len(v)` is `2*n ≤ arr.length`);
the function returns the re-sliced view `v[:len(v)*2]`. -/
def hexInPlace (n : Nat) (arr : List Nat) : List Nat :=
  (hexLoopAux n arr).take (2*n)

/-- Mathematical hex encoding of a byte list: what `hexInPlace` is
supposed to compute. -/
def hexEncode : List Nat → List Nat
  | [] => []
  | b :: r => hexdig (b / 16) :: hexdig (b % 16) :: hexEncode r

/-- Inverse nibble lookup (index of a byte in the hex table). -/
def unhexdig (c : Nat) : Nat := hexTable.findIdx (fun x => x == c)

/-- Hex decoding: pairs of hex characters back to bytes. -/
def hexDecode : List Nat → List Nat
  | c1 :: c2 :: r => (unhexdig c1 * 16 + unhexdig c2) :: hexDecode r
  | _ => []

/-! ## Exploration sequencer (`explore`, gitbrute.go lines 146-155) -/

/-- `try` from the source: a pair of seconds behind the original dates.
Go `int` is 64-bit; modelled on `Int` (named `Try`: `try` is a Lean
keyword). -/
structure Try where
  commitBehind : Int
  authorBehind : Int
deriving DecidableEq, Repr

/-- One iteration of `explore`'s outer loop at level `max = m`: emit
`try{i, max}` for `i = 0 … max-1`, then `try{max, j}` for `j = 0 … max`. -/
def level (m : Nat) : List Try :=
  ((List.range m).map (fun (i : Nat) => Try.mk (i : Int) (m : Int))) ++
    ((List.range (m+1)).map (fun (j : Nat) => Try.mk (m : Int) (j : Int)))

/-- The first `k` levels of `explore`'s infinite output, concatenated. -/
def exploreUpTo : Nat → List Try
  | 0 => []
  | k+1 => exploreUpTo k ++ level k

/-! ## SHA-1 (`crypto/sha1`, used by the worker)

An executable model of SHA-1 on byte lists, 32-bit words as `Nat` with
explicit `% 2^32`. -/

/-- Left-rotate a 32-bit word by `n` bits. -/
def rotl32 (n x : Nat) : Nat :=
  ((x * 2 ^ n) % 4294967296) + (x % 4294967296) / 2 ^ (32 - n)

/-- Big-endian bytes of `x`, `k` bytes wide. -/
def toBytesBE : Nat → Nat → List Nat
  | 0, _ => []
  | k+1, x => toBytesBE k (x / 256) ++ [x % 256]

/-- Group bytes into big-endian 32-bit words. -/
def wordsBE : List Nat → List Nat
  | a :: b :: c :: d :: r => (((a * 256 + b) * 256 + c) * 256 + d) :: wordsBE r
  | _ => []

/-- SHA-1 message padding: append `0x80`, zeros to 56 mod 64, then the
bit length as 8 big-endian bytes (mod 2^64). -/
def sha1Pad (msg : List Nat) : List Nat :=
  msg ++ 128 :: List.replicate ((119 - msg.length % 64) % 64) 0
    ++ toBytesBE 8 ((8 * msg.length) % 18446744073709551616)

/-- Extend a 16-word chunk by `k` more schedule words
(`w[i] = rotl1 (w[i-3] xor w[i-8] xor w[i-14] xor w[i-16])`). -/
def sha1Extend (ws : List Nat) : Nat → List Nat
  | 0 => ws
  | k+1 =>
      let w := sha1Extend ws k
      let i := w.length
      w ++ [rotl32 1 (Nat.xor (Nat.xor (w.getD (i-3) 0) (w.getD (i-8) 0))
                      (Nat.xor (w.getD (i-14) 0) (w.getD (i-16) 0)))]

/-- The running state of one SHA-1 compression: `(a, b, c, d, e)`. -/
def Sha1St : Type := Nat × Nat × Nat × Nat × Nat

/-- Round `i` of SHA-1 compression. -/
def sha1Round (w : List Nat) (i : Nat) : Sha1St → Sha1St
  | (a, b, c, d, e) =>
      let f :=
        if i < 20 then Nat.lor (Nat.land b c) (Nat.land (Nat.xor b 4294967295) d)
        else if i < 40 then Nat.xor (Nat.xor b c) d
        else if i < 60 then Nat.lor (Nat.lor (Nat.land b c) (Nat.land b d)) (Nat.land c d)
        else Nat.xor (Nat.xor b c) d
      let k :=
        if i < 20 then 1518500249
        else if i < 40 then 1859775393
        else if i < 60 then 2400959708
        else 3395469782
      let temp := (rotl32 5 a + f + e + k + w.getD i 0) % 4294967296
      (temp, a, rotl32 30 b, c, d)

/-- Apply rounds `0 … n-1`. -/
def sha1Rounds (w : List Nat) : Nat → Sha1St → Sha1St
  | 0, st => st
  | n+1, st => sha1Round w n (sha1Rounds w n st)

/-- One SHA-1 chunk compression over the five hash words. -/
def sha1Compress (h : Sha1St) (chunk : List Nat) : Sha1St :=
  let w := sha1Extend chunk 64
  match h, sha1Rounds w 80 h with
  | (h0, h1, h2, h3, h4), (a, b, c, d, e) =>
      ((h0 + a) % 4294967296, (h1 + b) % 4294967296, (h2 + c) % 4294967296,
       (h3 + d) % 4294967296, (h4 + e) % 4294967296)

/-- Words `16*i … 16*i+15` of the padded message. -/
def sha1ChunkAt (ws : List Nat) (i : Nat) : List Nat :=
  (ws.drop (16 * i)).take 16

/-- Hash state after the first `k` chunks. -/
def sha1Process (ws : List Nat) : Nat → Sha1St
  | 0 => (1732584193, 4023233417, 2562383102, 271733878, 3285377520)
  | k+1 => sha1Compress (sha1Process ws k) (sha1ChunkAt ws k)

/-- SHA-1 digest (20 bytes) of a byte list. -/
def sha1 (msg : List Nat) : List Nat :=
  let padded := sha1Pad msg
  let ws := wordsBE padded
  match sha1Process ws (padded.length / 64) with
  | (h0, h1, h2, h3, h4) =>
      toBytesBE 4 h0 ++ toBytesBE 4 h1 ++ toBytesBE 4 h2 ++
        toBytesBE 4 h3 ++ toBytesBE 4 h4

/-! ## Decimal / integer parsing and rendering

`strconv.ParseInt(s, base, 64)` modelled by its documented behavior:
an optional sign, then one or more digits of the base (no underscores,
no base markers when an explicit base is given), value within int64,
anything else an error (`none`). -/

/-- Value of a decimal digit byte, if it is one. -/
def decDigVal (c : Nat) : Option Nat :=
  if 48 ≤ c && c ≤ 57 then some (c - 48) else none

/-- Value of a hexadecimal digit byte (strconv accepts both cases). -/
def hexDigVal (c : Nat) : Option Nat :=
  if 48 ≤ c && c ≤ 57 then some (c - 48)
  else if 97 ≤ c && c ≤ 102 then some (c - 87)
  else if 65 ≤ c && c ≤ 70 then some (c - 55)
  else none

/-- Accumulate digit values left to right; `none` on a non-digit. -/
def digitsValAux (base : Nat) (dv : Nat → Option Nat) : List Nat → Nat → Option Nat
  | [], acc => some acc
  | c :: r, acc =>
      match dv c with
      | none => none
      | some d => digitsValAux base dv r (acc * base + d)

/-- Strip one optional leading sign; `true` means negative. -/
def parseSign : List Nat → Bool × List Nat
  | [] => (false, [])
  | c :: r =>
      if c = 43 then (false, r)
      else if c = 45 then (true, r)
      else (false, c :: r)

/-- `strconv.ParseInt(s, base, 64)` with digit reader `dv`. -/
def goParseInt (base : Nat) (dv : Nat → Option Nat) (s : List Nat) : Option Int :=
  match parseSign s with
  | (_, []) => none
  | (neg, c :: r) =>
      match digitsValAux base dv (c :: r) 0 with
      | none => none
      | some v =>
          if neg then
            if v ≤ 9223372036854775808 then some (-(v : Int)) else none
          else
            if v ≤ 9223372036854775807 then some (v : Int) else none

/-- `strconv.ParseInt(s, 10, 64)`. -/
def parseInt10 (s : List Nat) : Option Int := goParseInt 10 decDigVal s

/-- `strconv.ParseInt(s, 16, 64)`. -/
def parseIntHex64 (s : List Nat) : Option Int := goParseInt 16 hexDigVal s

/-- The prefix precondition check in `main` (gitbrute.go line 43):
the run is aborted unless `strconv.ParseInt(prefix, 16, 64)` succeeds. -/
def mainHexCheck (s : List Nat) : Bool := (parseIntHex64 s).isSome

/-- A byte that is a hexadecimal digit (either case). -/
def isHexDigitByte (c : Nat) : Bool := (hexDigVal c).isSome

/-- Canonical decimal rendering of a natural number (`fmt %d`,
`strconv.AppendInt` for nonnegative values). -/
def renderNat (n : Nat) : List Nat := (Nat.toDigits 10 n).map Char.toNat

/-- Canonical decimal rendering of an integer (`fmt %d`, `strconv.AppendInt`). -/
def renderInt (i : Int) : List Nat :=
  if i < 0 then 45 :: renderNat (-i).toNat else renderNat i.toNat

/-! ## Date codec (`date`, `date.String`, `getDate`, gitbrute.go lines 157-183) -/

/-- `date` from the source: unix seconds (int64) and a timezone string. -/
structure date where
  n : Int
  tz : List Nat
deriving DecidableEq

/-- `func (d date) String() string`: `fmt.Sprintf("%d %s", d.n, d.tz)`. -/
def date.String (d : date) : List Nat := renderInt d.n ++ 32 :: d.tz

/-- `solution` from the source. -/
structure solution where
  author : date
  committer : date
deriving DecidableEq

/-- Split a byte buffer at newlines (the line starts are exactly where
`(?m)^` can anchor). -/
def splitLines : List Nat → List (List Nat)
  | [] => [[]]
  | c :: rest =>
      match splitLines rest with
      | [] => [[c]]
      | h :: t => if c = 10 then [] :: h :: t else (c :: h) :: t

/-- For the regex `^<label>.+> (.+)` applied to one line: the position of
the `'>'` of the matched `"> "`.  `.+` is greedy, so it is the largest
`q` with `line[q] = '>'`, `line[q+1] = ' '`, at least one character
between the label and `q`, and at least one character after `q+1`. -/
def findGtSp (label line : List Nat) : Option Nat :=
  ((List.range line.length).filter
    (fun q => decide (label.length + 1 ≤ q) && decide (q + 3 ≤ line.length) &&
      (line.getD q 0 == 62) && (line.getD (q+1) 0 == 32))).getLast?

/-- Scan lines (with their absolute start offsets) for the first one that
matches `^<label>.+> (.+)`; return the capture's absolute byte offset and
the captured text. -/
def getDateLines (label : List Nat) : Nat → List (List Nat) → Option (Nat × List Nat)
  | _, [] => none
  | off, ln :: rest =>
      match (if startsWithB ln label then findGtSp label ln else none) with
      | some q => some (off + q + 2, ln.drop (q + 2))
      | none => getDateLines label (off + ln.length + 1) rest

/-- First index of a space byte. -/
def idxOf32 : List Nat → Option Nat
  | [] => none
  | c :: r => if c = 32 then some 0 else (idxOf32 r).map (· + 1)

/-- The body of `getDate` once the regex capture `v` is in hand:
`space := strings.Index(v, " ")`, parse `v[:space]` base 10 into int64,
keep `v[space+1:]` as the timezone (each failure is a `log.Fatalf`). -/
def getDateField (v : List Nat) : Option date :=
  match idxOf32 v with
  | none => none
  | some sp =>
      match parseInt10 (v.take sp) with
      | none => none
      | some n => some ⟨n, v.drop (sp + 1)⟩

/-- `getDate`: locate the date field of the `label`-headed line in `h`,
returning the parsed date and the byte index where the capture begins
(`m[2]`).  `none` models `log.Fatalf`. -/
def getDate (h : List Nat) (label : List Nat) : Option (date × Nat) :=
  match getDateLines label 0 (splitLines h) with
  | none => none
  | some (idx, v) =>
      match getDateField v with
      | none => none
      | some d => some (d, idx)

/-! ## Worker (`bruteForce`, gitbrute.go lines 93-123) -/

/-- The worker's private buffer:
`blob := []byte(fmt.Sprintf("commit %d\x00%s", len(obj), obj))`. -/
def commitBlob (obj : List Nat) : List Nat :=
  strB "commit " ++ renderNat obj.length ++ 0 :: obj

/-- `strconv.AppendInt(blob[:i], …, 10)` writes the rendered bytes `s`
into the backing array starting at `i`; the returned slice is discarded,
so the visible buffer keeps its length.  When the write would run past
the buffer, `append` reallocates and the original buffer is untouched
(the backing array is modelled as exactly the buffer). -/
def appendAt (buf : List Nat) (i : Nat) (s : List Nat) : List Nat :=
  if i + s.length ≤ buf.length then buf.take i ++ s ++ buf.drop (i + s.length)
  else buf

/-- Two's-complement wrap of an integer into int64, modelling Go's
signed 64-bit arithmetic. -/
def wrap64 (x : Int) : Int :=
  (x + 9223372036854775808) % 18446744073709551616 - 9223372036854775808

/-- The dates a candidate produces
(`ad := date{authorDate.n - int64(t.authorBehind), authorDate.tz}` and
`cd := date{commitDate.n - int64(t.commitBehind), commitDate.tz}`). -/
def tryDates (aD cD : date) (t : Try) : date × date :=
  (⟨wrap64 (aD.n - t.authorBehind), aD.tz⟩, ⟨wrap64 (cD.n - t.commitBehind), cD.tz⟩)

/-- Both in-place timestamp overwrites of one candidate attempt. -/
def writeTimestamps (blob : List Nat) (adatei cdatei : Nat) (an cn : Int) : List Nat :=
  appendAt (appendAt blob adatei (renderInt an)) cdatei (renderInt cn)

/-- `hexInPlace(s1.Sum(hexBuf[:0]))`: the digest `d` sits in a buffer of
capacity `2*len(d)` (`hexBuf` has capacity `sha1.Size*2`); the spare
cells' initial contents are irrelevant (the loop overwrites every output
cell), zeros here. -/
def hexDigestOf (d : List Nat) : List Nat :=
  hexInPlace d.length (d ++ List.replicate d.length 0)

/-- The worker loop: for each candidate pulled before cancellation,
shift both dates, overwrite both digit runs in the private buffer
(which persists, mutated, across iterations), hash, and compare the
hex digest against the wanted prefix; on a match report the solution
and stop.  The finite list is the stream of candidates the worker
consumes before `done` is closed; an exhausted list models
cancellation with no match found. -/
def bruteForceLoop (want : List Nat) (adatei cdatei : Nat) (aD cD : date) :
    List Nat → List Try → Option solution
  | _, [] => none
  | blob, t :: ts =>
      let ad := (tryDates aD cD t).1
      let cd := (tryDates aD cD t).2
      let blob2 := writeTimestamps blob adatei cdatei ad.n cd.n
      if startsWithB (hexDigestOf (sha1 blob2)) want then some ⟨ad, cd⟩
      else bruteForceLoop want adatei cdatei aD cD blob2 ts

/-- `bruteForce`: build the private blob, locate both dates
(`log.Fatalf`, i.e. `none`, when either is absent), lower-case the
wanted prefix, and run the loop. -/
def bruteForce (obj : List Nat) (want : List Nat) (ts : List Try) : Option solution :=
  let blob := commitBlob obj
  match getDate blob (strB "author"), getDate blob (strB "committer") with
  | some (aD, adatei), some (cD, cdatei) =>
      bruteForceLoop (toLowerB want) adatei cdatei aD cD blob ts
  | _, _ => none

/-! ## Coordinator (`main`, gitbrute.go lines 62-82)

The coordinator's winner handling, as a state machine: it performs one
receive on the unbuffered `winner` channel (`w := <-winner`), then
broadcasts cancellation (`close(done)`), and never touches the channel
again.  A step relation on this state is the shallow embedding of that
control flow; a trace is any run of the coordinator. -/

/-- Coordinator control state. -/
inductive CoordState where
  | waiting
  | gotWinner (w : solution)
  | finished (w : solution)
deriving DecidableEq

/-- Observable coordinator events: a worker's solution being delivered
through the winner channel, and the cancellation broadcast. -/
inductive CoordEvent where
  | deliver (s : solution)
  | cancelBroadcast
deriving DecidableEq

/-- One coordinator step: the single receive, then the single broadcast.
No step leaves `finished`: further worker results are neither awaited
nor inspected. -/
inductive coordStep : CoordState → CoordEvent → CoordState → Prop where
  | recv (s : solution) :
      coordStep CoordState.waiting (CoordEvent.deliver s) (CoordState.gotWinner s)
  | cancel (s : solution) :
      coordStep (CoordState.gotWinner s) CoordEvent.cancelBroadcast (CoordState.finished s)

/-- Reflexive-transitive closure: a coordinator trace. -/
inductive coordSteps : CoordState → List CoordEvent → CoordState → Prop where
  | nil (σ : CoordState) : coordSteps σ [] σ
  | cons {σ σ' σ'' : CoordState} {e : CoordEvent} {tr : List CoordEvent} :
      coordStep σ e σ' → coordSteps σ' tr σ'' → coordSteps σ (e :: tr) σ''

/-- Whether an event is a solution delivery. -/
def isDeliver : CoordEvent → Bool
  | CoordEvent.deliver _ => true
  | CoordEvent.cancelBroadcast => false

/-! ## Concrete inputs used by witnesses and counterexamples -/

/-- A commit object whose author date field is `"-5 +0000"`: a second
candidate attempt can then produce a strictly shorter rendering than a
previous one left in the buffer. -/
def objNeg : List Nat := strB "t\nauthor <a> -5 +0000\ncommitter <c> 5 +0000"

/-- A commit object with ten-digit canonical dates. -/
def objTen : List Nat := strB "t\nauthor <a> 1000000000 +0000\ncommitter <c> 1000000000 +0000"

/-- A record whose author epoch seconds are written `007`:
parseable, but not the canonical rendering of its value. -/
def recPad : List Nat := strB "x\nauthor <a> 007 +0000"

/-- A record whose author epoch seconds are written canonically. -/
def recCan : List Nat := strB "x\nauthor <a> 75 +0000"

/-- Rejoin split lines with newlines (inverse of `splitLines`; used to
state where a matched field sits inside the record). -/
def joinLines : List (List Nat) → List Nat
  | [] => []
  | [x] => x
  | x :: y :: t => x ++ 10 :: joinLines (y :: t)

/-! # Theorems -/

/-! ## Hex encoder lemmas -/

theorem toBytesBE_length (k x : Nat) : (toBytesBE k x).length = k := by
  induction k generalizing x with
  | zero => rfl
  | succ k ih => simp [toBytesBE, ih]

theorem hexEncode_append (a b : List Nat) :
    hexEncode (a ++ b) = hexEncode a ++ hexEncode b := by
  induction a with
  | nil => rfl
  | cons x r ih => simp [hexEncode, ih]

theorem hexEncode_length (l : List Nat) : (hexEncode l).length = 2 * l.length := by
  induction l with
  | nil => rfl
  | cons x r ih => simp [hexEncode, ih]; omega

theorem getD_eq_getElem (l : List Nat) (i : Nat) (h : i < l.length) :
    l.getD i 0 = l[i] := by
  rw [List.getD_eq_getElem?_getD, List.getElem?_eq_getElem h]; rfl

theorem hexLoopAux_spec :
    ∀ (i : Nat) (arr : List Nat), 2*i ≤ arr.length →
      hexLoopAux i arr = hexEncode (arr.take i) ++ arr.drop (2*i) := by
  intro i
  induction i with
  | zero => intro arr _; simp [hexLoopAux, hexEncode]
  | succ i ih =>
      intro arr h
      have hlen : 2*i+1 < arr.length := by omega
      have hlen2 : 2*i < arr.length := by omega
      have hi : i < arr.length := by omega
      have hstep : hexLoopAux (i+1) arr
          = hexLoopAux i ((arr.set (2*i) (hexdig (arr.getD i 0 / 16))).set (2*i+1)
              (hexdig (arr.getD i 0 % 16))) := rfl
      have harr' : ((arr.set (2*i) (hexdig (arr.getD i 0 / 16))).set (2*i+1)
          (hexdig (arr.getD i 0 % 16))).length = arr.length := by
        simp [List.length_set]
      rw [hstep, ih _ (by rw [harr']; omega)]
      have htake : ((arr.set (2*i) (hexdig (arr.getD i 0 / 16))).set (2*i+1)
          (hexdig (arr.getD i 0 % 16))).take i = arr.take i := by
        apply List.ext_getElem?
        intro j
        rw [List.getElem?_take, List.getElem?_take]
        split
        · next hj =>
            rw [List.getElem?_set_ne (by omega), List.getElem?_set_ne (by omega)]
        · rfl
      have hdrop : ((arr.set (2*i) (hexdig (arr.getD i 0 / 16))).set (2*i+1)
          (hexdig (arr.getD i 0 % 16))).drop (2*i)
          = hexdig (arr.getD i 0 / 16) :: hexdig (arr.getD i 0 % 16) :: arr.drop (2*i+2) := by
        rw [List.drop_set, if_neg (by omega), List.drop_set, if_neg (by omega)]
        have e1 : 2*i+1 - 2*i = 1 := by omega
        have e2 : 2*i - 2*i = 0 := by omega
        rw [e1, e2, List.drop_eq_getElem_cons hlen2]
        have e3 : arr.drop (2*i+1) = arr[2*i+1] :: arr.drop (2*i+2) :=
          List.drop_eq_getElem_cons hlen
        rw [e3, List.set_cons_zero, List.set_cons_succ, List.set_cons_zero]
      rw [htake, hdrop]
      have htk : arr.take (i+1) = arr.take i ++ [arr[i]] := by
        rw [List.take_succ, List.getElem?_eq_getElem hi]
        rfl
      have hgd : arr.getD i 0 = arr[i] := getD_eq_getElem arr i hi
      have e4 : 2*(i+1) = 2*i+2 := by ring
      rw [htk, hexEncode_append, e4, hgd]
      simp [hexEncode, List.append_assoc]

theorem hexInPlace_spec (n : Nat) (arr : List Nat) (h : 2*n ≤ arr.length) :
    hexInPlace n arr = hexEncode (arr.take n) := by
  unfold hexInPlace
  rw [hexLoopAux_spec n arr h]
  have hlen : (hexEncode (arr.take n)).length = 2*n := by
    rw [hexEncode_length, List.length_take]
    omega
  rw [List.take_append_of_le_length (by omega), List.take_of_length_le (by omega)]

theorem hexdig_mem : ∀ k, k < 16 → hexdig k ∈ hexTable := by decide

theorem unhex_hexdig : ∀ k, k < 16 → unhexdig (hexdig k) = k := by decide

/-- C9: `hexInPlace` has the unstated precondition that the backing
capacity is at least twice the slice length (`2*n ≤ arr.length`); under
it every loop access is in bounds, the buffer length is preserved, and —
because the loop fills the output from the highest index downward, so
each input byte is read before its cell is overwritten — the in-place
result is the hex encoding of the slice's original contents. -/
theorem hexInPlace_inPlace_correct (n : Nat) (arr : List Nat) (h : 2*n ≤ arr.length) :
    hexInPlace n arr = hexEncode (arr.take n) ∧
    (hexLoopAux n arr).length = arr.length ∧
    (∀ i, i < n → i < arr.length ∧ 2*i+1 < arr.length) := by
  refine ⟨hexInPlace_spec n arr h, ?_, ?_⟩
  · rw [hexLoopAux_spec n arr h]
    simp [hexEncode_length, List.length_take, List.length_drop]
    omega
  · intro i hi
    omega

/-- Witness for C9 at a concrete slice of length 2 in a capacity-4 array. -/
theorem hexInPlace_inPlace_correct_witness :
    2*2 ≤ ([171, 5, 0, 0] : List Nat).length ∧
    hexInPlace 2 [171, 5, 0, 0] = hexEncode ([171, 5, 0, 0].take 2) :=
  ⟨by decide, (hexInPlace_inPlace_correct 2 [171, 5, 0, 0] (by decide)).1⟩

theorem hexEncode_mem_table (b : List Nat) (hb : ∀ x ∈ b, x < 256) :
    ∀ c ∈ hexEncode b, c ∈ hexTable := by
  induction b with
  | nil => intro c hc; simp [hexEncode] at hc
  | cons x r ih =>
      intro c hc
      have hx : x < 256 := hb x (by simp)
      simp only [hexEncode, List.mem_cons] at hc
      rcases hc with h1 | h2 | h3
      · exact h1 ▸ hexdig_mem (x / 16) (by omega)
      · exact h2 ▸ hexdig_mem (x % 16) (by omega)
      · exact ih (fun y hy => hb y (by simp [hy])) c h3

theorem hexDecode_hexEncode (b : List Nat) (hb : ∀ x ∈ b, x < 256) :
    hexDecode (hexEncode b) = b := by
  induction b with
  | nil => rfl
  | cons x r ih =>
      have hx : x < 256 := hb x (by simp)
      simp only [hexEncode, hexDecode]
      rw [unhex_hexdig (x / 16) (by omega), unhex_hexdig (x % 16) (by omega),
        ih (fun y hy => hb y (by simp [hy]))]
      congr 1
      omega

/-- C5: on a byte buffer `b` (backing capacity at least `2*len(b)`, as the
caller guarantees), the hex encoder returns exactly the hex encoding of
`b`: a pure function of `b` of length `2 * len(b)`, all characters drawn
from the lowercase table `"0123456789abcdef"`, and decoding reproduces
`b` exactly. -/
theorem hexInPlace_roundTrip (b extra : List Nat) (hb : ∀ x ∈ b, x < 256)
    (hcap : b.length ≤ extra.length) :
    hexInPlace b.length (b ++ extra) = hexEncode b ∧
    (hexEncode b).length = 2 * b.length ∧
    (∀ c ∈ hexEncode b, c ∈ hexTable) ∧
    hexDecode (hexEncode b) = b := by
  refine ⟨?_, hexEncode_length b, hexEncode_mem_table b hb, hexDecode_hexEncode b hb⟩
  have h2 : 2 * b.length ≤ (b ++ extra).length := by
    simp [List.length_append]; omega
  rw [hexInPlace_spec b.length (b ++ extra) h2, List.take_left]

/-- Witness for C5 at `b = [171, 5]`. -/
theorem hexInPlace_roundTrip_witness :
    (∀ x ∈ ([171, 5] : List Nat), x < 256) ∧
    hexDecode (hexEncode [171, 5]) = [171, 5] :=
  ⟨by decide, (hexInPlace_roundTrip [171, 5] [0, 0] (by decide) (by decide)).2.2.2⟩

/-! ## Exploration sequencer lemmas -/

theorem level_coords (m : Nat) (t : Try) (h : t ∈ level m) :
    0 ≤ t.commitBehind ∧ 0 ≤ t.authorBehind ∧
      max t.commitBehind t.authorBehind = (m : Int) := by
  rcases List.mem_append.1 h with h1 | h1
  · rcases List.mem_map.1 h1 with ⟨i, hi, rfl⟩
    have him : i < m := List.mem_range.1 hi
    refine ⟨Int.ofNat_nonneg i, Int.ofNat_nonneg m, ?_⟩
    show max (i : Int) (m : Int) = (m : Int)
    exact max_eq_right (by exact_mod_cast Nat.le_of_lt him)
  · rcases List.mem_map.1 h1 with ⟨j, hj, rfl⟩
    have hjm : j ≤ m := Nat.lt_succ_iff.1 (List.mem_range.1 hj)
    refine ⟨Int.ofNat_nonneg m, Int.ofNat_nonneg j, ?_⟩
    show max (m : Int) (j : Int) = (m : Int)
    exact max_eq_left (by exact_mod_cast hjm)

theorem level_nodup (m : Nat) : (level m).Nodup := by
  rw [level, List.nodup_append]
  refine ⟨?_, ?_, ?_⟩
  · refine List.Nodup.map ?_ (List.nodup_range m)
    intro a b hab
    have := congrArg Try.commitBehind hab
    simpa using this
  · refine List.Nodup.map ?_ (List.nodup_range (m+1))
    intro a b hab
    have := congrArg Try.authorBehind hab
    simpa using this
  · rw [List.disjoint_left]
    rintro t h1 h2
    rcases List.mem_map.1 h1 with ⟨i, hi, rfl⟩
    rcases List.mem_map.1 h2 with ⟨j, _, hj⟩
    have hc := congrArg Try.commitBehind hj
    simp only [Try.commitBehind] at hc
    have : (m : Int) ≠ (i : Int) := by
      have : i < m := List.mem_range.1 hi
      exact_mod_cast Nat.ne_of_gt this
    exact this hc

theorem exploreUpTo_max_lt (k : Nat) :
    ∀ t ∈ exploreUpTo k, max t.commitBehind t.authorBehind < (k : Int) := by
  induction k with
  | zero => intro t ht; simp [exploreUpTo] at ht
  | succ k ih =>
      intro t ht
      rcases List.mem_append.1 ht with h | h
      · have := ih t h
        have hk : (k : Int) < ((k+1 : Nat) : Int) := by exact_mod_cast Nat.lt_succ_self k
        omega
      · have := (level_coords k t h).2.2
        rw [this]
        exact_mod_cast Nat.lt_succ_self k

theorem exploreUpTo_nodup (k : Nat) : (exploreUpTo k).Nodup := by
  induction k with
  | zero => simp [exploreUpTo]
  | succ k ih =>
      rw [exploreUpTo, List.nodup_append]
      refine ⟨ih, level_nodup k, ?_⟩
      rw [List.disjoint_left]
      intro t h1 h2
      have hlt := exploreUpTo_max_lt k t h1
      have heq := (level_coords k t h2).2.2
      omega

/-- C2: for every level `m`, the sequencer emits — after all pairs of
levels below `m` — first `(i, m)` for `i = 0 … m-1` (committer shift
varying) and then `(m, j)` for `j = 0 … m`: exactly `2m+1` pairs at
level `m`, each with non-negative coordinates whose maximum is `m`, and
no pair is emitted twice anywhere in the sequence. -/
theorem explore_level_structure (m : Nat) :
    exploreUpTo (m+1) = exploreUpTo m ++ level m ∧
    level m = ((List.range m).map (fun (i : Nat) => Try.mk (i : Int) (m : Int))) ++
      ((List.range (m+1)).map (fun (j : Nat) => Try.mk (m : Int) (j : Int))) ∧
    (level m).length = 2*m + 1 ∧
    (∀ t ∈ level m, 0 ≤ t.commitBehind ∧ 0 ≤ t.authorBehind ∧
      max t.commitBehind t.authorBehind = (m : Int)) ∧
    (∀ k : Nat, (exploreUpTo k).Nodup) := by
  refine ⟨rfl, rfl, ?_, level_coords m, exploreUpTo_nodup⟩
  simp [level]
  omega

/-- Witness for C2 at level 2 and the pair (1, 2). -/
theorem explore_level_structure_witness :
    (Try.mk 1 2 ∈ level 2) ∧
    (0 ≤ (Try.mk 1 2).commitBehind ∧ 0 ≤ (Try.mk 1 2).authorBehind ∧
      max (Try.mk 1 2).commitBehind (Try.mk 1 2).authorBehind = (2 : Int)) :=
  ⟨by decide, (explore_level_structure 2).2.2.2.1 (Try.mk 1 2) (by decide)⟩

/-! ## In-place overwrite lemmas -/

theorem appendAt_of_overflow (buf : List Nat) (i : Nat) (s : List Nat)
    (h : ¬ (i + s.length ≤ buf.length)) : appendAt buf i s = buf := by
  unfold appendAt
  rw [if_neg h]

theorem length_appendAt (buf : List Nat) (i : Nat) (s : List Nat) :
    (appendAt buf i s).length = buf.length := by
  unfold appendAt
  split
  · next h =>
      simp only [List.length_append, List.length_take, List.length_drop]
      omega
  · rfl

theorem getElem?_appendAt (buf : List Nat) (i : Nat) (s : List Nat) (j : Nat)
    (hle : i + s.length ≤ buf.length) :
    (appendAt buf i s)[j]? =
      if i ≤ j ∧ j < i + s.length then s[j - i]? else buf[j]? := by
  unfold appendAt
  rw [if_pos hle]
  have hti : (buf.take i).length = i := by rw [List.length_take]; omega
  have hts : (buf.take i ++ s).length = i + s.length := by
    rw [List.length_append, hti]
  by_cases h1 : j < i
  · rw [if_neg (by omega), List.getElem?_append,
      if_pos (show j < (buf.take i ++ s).length by omega),
      List.getElem?_append, if_pos (show j < (buf.take i).length by omega),
      List.getElem?_take, if_pos h1]
  · by_cases h2 : j < i + s.length
    · rw [if_pos ⟨by omega, h2⟩, List.getElem?_append,
        if_pos (show j < (buf.take i ++ s).length by omega),
        List.getElem?_append, if_neg (show ¬ j < (buf.take i).length by omega),
        hti]
    · rw [if_neg (by omega), List.getElem?_append,
        if_neg (show ¬ j < (buf.take i ++ s).length by omega),
        hts, List.getElem?_drop]
      have e : i + s.length + (j - (i + s.length)) = j := by omega
      rw [e]

theorem appendAt_absorb (buf : List Nat) (i : Nat) (s1 s2 : List Nat)
    (hs : s1.length = s2.length) :
    appendAt (appendAt buf i s1) i s2 = appendAt buf i s2 := by
  by_cases hle : i + s1.length ≤ buf.length
  · have hle2 : i + s2.length ≤ buf.length := by omega
    have hlen1 := length_appendAt buf i s1
    apply List.ext_getElem?
    intro j
    rw [getElem?_appendAt (appendAt buf i s1) i s2 j (by rw [hlen1]; omega),
        getElem?_appendAt buf i s2 j hle2]
    split
    · rfl
    · next h => rw [getElem?_appendAt buf i s1 j hle, if_neg (by omega)]
  · rw [appendAt_of_overflow buf i s1 hle]

theorem appendAt_comm (buf : List Nat) (i c : Nat) (sa sc : List Nat)
    (hic : i + sa.length ≤ c) :
    appendAt (appendAt buf i sa) c sc = appendAt (appendAt buf c sc) i sa := by
  by_cases hfa : i + sa.length ≤ buf.length
  · by_cases hfc : c + sc.length ≤ buf.length
    · apply List.ext_getElem?
      intro j
      have la := length_appendAt buf i sa
      have lc := length_appendAt buf c sc
      rw [getElem?_appendAt (appendAt buf i sa) c sc j (by rw [la]; omega),
          getElem?_appendAt (appendAt buf c sc) i sa j (by rw [lc]; omega)]
      by_cases h1 : c ≤ j ∧ j < c + sc.length
      · rw [if_pos h1, if_neg (by omega), getElem?_appendAt buf c sc j hfc,
          if_pos h1]
      · rw [if_neg h1]
        by_cases h2 : i ≤ j ∧ j < i + sa.length
        · rw [if_pos h2, getElem?_appendAt buf i sa j hfa, if_pos h2]
        · rw [if_neg h2, getElem?_appendAt buf i sa j hfa, if_neg h2,
              getElem?_appendAt buf c sc j hfc, if_neg h1]
    · have e1 : appendAt buf c sc = buf := appendAt_of_overflow _ _ _ hfc
      have e2 : appendAt (appendAt buf i sa) c sc = appendAt buf i sa := by
        apply appendAt_of_overflow
        rw [length_appendAt]
        exact hfc
      rw [e1, e2]
  · have hfc : ¬ (c + sc.length ≤ buf.length) := by omega
    rw [appendAt_of_overflow buf i sa hfa, appendAt_of_overflow buf c sc hfc,
      appendAt_of_overflow buf i sa hfa]

/-- C3: when the new decimal renderings of both epoch values have the
same widths `la`, `lc` as the digit runs they replace (author run at
`adatei`, committer run at `cdatei`, in order, inside the buffer), the
worker's in-place rewrite preserves the buffer's total length and leaves
every byte outside the two runs unchanged. -/
theorem writeTimestamps_frame (blob : List Nat) (adatei cdatei : Nat) (an cn : Int)
    (la lc : Nat) (hla : (renderInt an).length = la) (hlc : (renderInt cn).length = lc)
    (h1 : adatei + la ≤ cdatei) (h2 : cdatei + lc ≤ blob.length) :
    (writeTimestamps blob adatei cdatei an cn).length = blob.length ∧
    (∀ j, j < adatei ∨ (adatei + la ≤ j ∧ j < cdatei) ∨ cdatei + lc ≤ j →
      (writeTimestamps blob adatei cdatei an cn)[j]? = blob[j]?) := by
  constructor
  · unfold writeTimestamps
    rw [length_appendAt, length_appendAt]
  · intro j hj
    unfold writeTimestamps
    have hin : adatei + (renderInt an).length ≤ blob.length := by omega
    have hout : cdatei + (renderInt cn).length ≤
        (appendAt blob adatei (renderInt an)).length := by
      rw [length_appendAt]
      omega
    rw [getElem?_appendAt _ _ _ _ hout, if_neg (by omega),
      getElem?_appendAt _ _ _ _ hin, if_neg (by omega)]

/-- Witness for C3: a 10-byte buffer with a 3-digit author run at
offset 2 and a 2-digit committer run at offset 6. -/
theorem writeTimestamps_frame_witness :
    ((renderInt 555).length = 3 ∧ (renderInt 44).length = 2 ∧
      2 + 3 ≤ 6 ∧ 6 + 2 ≤ (strB "ab111 22 c").length) ∧
    (writeTimestamps (strB "ab111 22 c") 2 6 555 44).length = (strB "ab111 22 c").length ∧
    (writeTimestamps (strB "ab111 22 c") 2 6 555 44)[9]? = (strB "ab111 22 c")[9]? :=
  ⟨by decide,
    (writeTimestamps_frame (strB "ab111 22 c") 2 6 555 44 3 2 (by decide) (by decide)
      (by decide) (by decide)).1,
    (writeTimestamps_frame (strB "ab111 22 c") 2 6 555 44 3 2 (by decide) (by decide)
      (by decide) (by decide)).2 9 (by decide)⟩

/-! ## Prefix validation lemmas (`main`, gitbrute.go line 43) -/

theorem digitsValAux_all_digits (base : Nat) (dv : Nat → Option Nat) :
    ∀ (l : List Nat) (acc v : Nat),
      digitsValAux base dv l acc = some v → ∀ c ∈ l, (dv c).isSome = true := by
  intro l
  induction l with
  | nil => intro acc v _ c hc; simp at hc
  | cons c0 r ih =>
      intro acc v h c hc
      unfold digitsValAux at h
      rcases hdv : dv c0 with _ | d
      · rw [hdv] at h; simp at h
      · rw [hdv] at h
        rcases List.mem_cons.1 hc with rfl | hcr
        · simp [hdv]
        · exact ih (acc * base + d) v h c hcr

theorem digitsValAux_all_some (base : Nat) (dv : Nat → Option Nat) :
    ∀ (l : List Nat) (acc : Nat), (∀ c ∈ l, (dv c).isSome = true) →
      ∃ v, digitsValAux base dv l acc = some v := by
  intro l
  induction l with
  | nil => intro acc _; exact ⟨acc, rfl⟩
  | cons c0 r ih =>
      intro acc hl
      have hc0 : (dv c0).isSome = true := hl c0 (by simp)
      rcases hdv : dv c0 with _ | d
      · rw [hdv] at hc0; simp at hc0
      · rcases ih (acc * base + d) (fun c hc => hl c (by simp [hc])) with ⟨v, hv⟩
        exact ⟨v, by unfold digitsValAux; rw [hdv]; exact hv⟩

theorem digitsValAux_append_eq (base : Nat) (dv : Nat → Option Nat) :
    ∀ (l1 l2 : List Nat) (acc : Nat),
      digitsValAux base dv (l1 ++ l2) acc =
        match digitsValAux base dv l1 acc with
        | none => none
        | some acc2 => digitsValAux base dv l2 acc2 := by
  intro l1
  induction l1 with
  | nil => intro l2 acc; rfl
  | cons c0 r ih =>
      intro l2 acc
      rw [List.cons_append]
      rcases hdv : dv c0 with _ | d
      · simp only [digitsValAux, hdv]
      · simp only [digitsValAux, hdv]
        exact ih l2 (acc * base + d)

theorem digitsValAux_lower (dv : Nat → Option Nat) :
    ∀ (l : List Nat) (acc v : Nat),
      digitsValAux 16 dv l acc = some v → acc * 16 ^ l.length ≤ v := by
  intro l
  induction l with
  | nil =>
      intro acc v h
      unfold digitsValAux at h
      simp only [Option.some.injEq] at h
      simp [h]
  | cons c0 r ih =>
      intro acc v h
      unfold digitsValAux at h
      rcases hdv : dv c0 with _ | d
      · rw [hdv] at h; simp at h
      · rw [hdv] at h
        have hb := ih (acc * 16 + d) v h
        have h1 : acc * 16 ^ (c0 :: r).length = acc * 16 * 16 ^ r.length := by
          rw [List.length_cons, pow_succ]
          ring
        have h2 : acc * 16 * 16 ^ r.length ≤ (acc * 16 + d) * 16 ^ r.length :=
          Nat.mul_le_mul_right _ (by omega)
        omega

theorem parseSign_shape (s : List Nat) (neg : Bool) (digs : List Nat)
    (h : parseSign s = (neg, digs)) :
    s = digs ∨ ∃ c0, (c0 = 43 ∨ c0 = 45) ∧ s = c0 :: digs := by
  rcases s with _ | ⟨c, r⟩
  · simp only [parseSign, Prod.mk.injEq] at h
    exact Or.inl h.2
  · simp only [parseSign] at h
    by_cases h43 : c = 43
    · rw [if_pos h43, Prod.mk.injEq] at h
      exact Or.inr ⟨c, Or.inl h43, by rw [h.2]⟩
    · rw [if_neg h43] at h
      by_cases h45 : c = 45
      · rw [if_pos h45, Prod.mk.injEq] at h
        exact Or.inr ⟨c, Or.inr h45, by rw [h.2]⟩
      · rw [if_neg h45, Prod.mk.injEq] at h
        exact Or.inl h.2

theorem parseSign_all_hex (s : List Nat) (hs : s ≠ [])
    (hhex : ∀ c ∈ s, isHexDigitByte c = true) : parseSign s = (false, s) := by
  rcases s with _ | ⟨c, r⟩
  · exact absurd rfl hs
  · have hc : isHexDigitByte c = true := hhex c (by simp)
    have h43 : c ≠ 43 := by rintro rfl; simp [isHexDigitByte, hexDigVal] at hc
    have h45 : c ≠ 45 := by rintro rfl; simp [isHexDigitByte, hexDigVal] at hc
    simp only [parseSign]
    rw [if_neg h43, if_neg h45]

theorem dropWhile_head_false {p : Nat → Bool} :
    ∀ (l : List Nat) (d0 : Nat) (rest : List Nat),
      l.dropWhile p = d0 :: rest → p d0 = false := by
  intro l
  induction l with
  | nil => intro d0 rest h; simp [List.dropWhile] at h
  | cons c r ih =>
      intro d0 rest h
      rw [List.dropWhile_cons] at h
      by_cases hp : p c = true
      · rw [if_pos hp] at h
        exact ih d0 rest h
      · rw [if_neg hp] at h
        injection h with h1 _
        subst h1
        simpa using hp

theorem hexDigVal_pos (c d : Nat) (h : hexDigVal c = some d) (h48 : c ≠ 48) :
    1 ≤ d := by
  simp only [hexDigVal] at h
  split_ifs at h with h1 h2 h3 <;> simp_all <;> omega

theorem digitsValAux_zeros :
    ∀ (l : List Nat), (∀ c ∈ l, c = 48) → digitsValAux 16 hexDigVal l 0 = some 0 := by
  intro l
  induction l with
  | nil => intro _; rfl
  | cons c r ih =>
      intro h
      have hc : c = 48 := h c (by simp)
      subst hc
      have h48 : hexDigVal 48 = some 0 := by decide
      unfold digitsValAux
      rw [h48]
      show digitsValAux 16 hexDigVal r (0 * 16 + 0) = some 0
      have h0 : 0 * 16 + 0 = 0 := by omega
      rw [h0]
      exact ih (fun c hc => h c (by simp [hc]))

/-- C7 (amended): a malformed (non-hexadecimal) prefix is fatally
rejected; an absent pattern or an unparsable date field in the record is
fatal with no recovery (`getDate` yields nothing); and conversely a
non-empty all-hex-digit prefix whose value fits in a signed 64-bit
integer passes the precondition check — the only check the core makes. -/
theorem precondition_failures :
    (∀ s c, c ∈ s → isHexDigitByte c = false → c ≠ 43 → c ≠ 45 →
        mainHexCheck s = false) ∧
    (∀ h label, getDateLines label 0 (splitLines h) = none → getDate h label = none) ∧
    (∀ h label idx v, getDateLines label 0 (splitLines h) = some (idx, v) →
        getDateField v = none → getDate h label = none) ∧
    (∀ s, s ≠ [] → (∀ c ∈ s, isHexDigitByte c = true) →
        (∃ v, digitsValAux 16 hexDigVal s 0 = some v ∧ v ≤ 9223372036854775807) →
        mainHexCheck s = true) := by
  refine ⟨?_, ?_, ?_, ?_⟩
  · intro s c hc hhex h43 h45
    cases hb : mainHexCheck s with
    | false => rfl
    | true =>
        exfalso
        unfold mainHexCheck parseIntHex64 goParseInt at hb
        rcases hps : parseSign s with ⟨neg, digs⟩
        rw [hps] at hb
        rcases digs with _ | ⟨c1, r1⟩
        · simp at hb
        · rcases hda : digitsValAux 16 hexDigVal (c1 :: r1) 0 with _ | v
          · simp [hda] at hb
          · have hdigs := digitsValAux_all_digits 16 hexDigVal (c1 :: r1) 0 v hda
            rcases parseSign_shape s neg (c1 :: r1) hps with heq | ⟨c0, hc0, heq⟩
            · rw [heq] at hc
              have := hdigs c hc
              rw [isHexDigitByte] at hhex
              rw [hhex] at this
              simp at this
            · rw [heq] at hc
              rcases List.mem_cons.1 hc with rfl | hcr
              · rcases hc0 with rfl | rfl
                · exact h43 rfl
                · exact h45 rfl
              · have := hdigs c hcr
                rw [isHexDigitByte] at hhex
                rw [hhex] at this
                simp at this
  · intro h label hnone
    simp [getDate, hnone]
  · intro h label idx v hsome hnone
    simp [getDate, hsome, hnone]
  · intro s hne hhex hex
    rcases hex with ⟨v, hv, hle⟩
    unfold mainHexCheck parseIntHex64 goParseInt
    rw [parseSign_all_hex s hne hhex]
    rcases s with _ | ⟨c1, r1⟩
    · exact absurd rfl hne
    · simp [hv, hle]

/-- Counterexample to C7 as stated: `"ffffffffffffffff"` is valid
hexadecimal text, yet the precondition check rejects it (its value
exceeds int64). -/
theorem mainHexCheck_rejects_valid_hex :
    (∀ c ∈ List.replicate 16 102, isHexDigitByte c = true) ∧
    List.replicate 16 102 ≠ [] ∧
    mainHexCheck (List.replicate 16 102) = false := by decide

/-- Witness for C7: a non-hex prefix is rejected; a short hex prefix
(value within int64) is accepted. -/
theorem precondition_failures_witness :
    mainHexCheck (strB "zz") = false ∧ mainHexCheck (strB "bf") = true :=
  ⟨precondition_failures.1 (strB "zz") 122 (by decide) (by decide) (by decide)
      (by decide),
    precondition_failures.2.2.2 (strB "bf") (by decide) (by decide)
      ⟨191, by decide⟩⟩

/-- C10 (amended): the prefix check accepts exactly when
`strconv.ParseInt(prefix, 16, 64)` succeeds: any all-hex prefix with
more than 16 significant digits (after leading zeros) overflows int64
and is rejected, the empty string is rejected, and strings with a
leading sign are accepted although they are not pure hex-digit text. -/
theorem mainHexCheck_significant_digits :
    (∀ s, (∀ c ∈ s, isHexDigitByte c = true) →
        16 < (s.dropWhile (fun c => c == 48)).length → mainHexCheck s = false) ∧
    mainHexCheck [] = false ∧
    mainHexCheck (strB "+1") = true ∧
    mainHexCheck (strB "-1") = true := by
  refine ⟨?_, by decide, by decide, by decide⟩
  intro s hhex hlen
  have hne : s ≠ [] := by
    intro h
    rw [h] at hlen
    simp at hlen
  have hsplit : s.takeWhile (fun c => c == 48) ++ s.dropWhile (fun c => c == 48) = s :=
    List.takeWhile_append_dropWhile _ _
  rcases hdw : s.dropWhile (fun c => c == 48) with _ | ⟨d0, rest⟩
  · rw [hdw] at hlen
    simp at hlen
  · have hd0 : (d0 == 48) = false := dropWhile_head_false s d0 rest hdw
    have hd0' : d0 ≠ 48 := by simpa using hd0
    have hd0mem : d0 ∈ s := by
      rw [← hsplit, hdw]
      simp
    have hd0hex : isHexDigitByte d0 = true := hhex d0 hd0mem
    rcases hdv : hexDigVal d0 with _ | d
    · rw [isHexDigitByte, hdv] at hd0hex
      simp at hd0hex
    · have hd1 : 1 ≤ d := hexDigVal_pos d0 d hdv hd0'
      have hz := digitsValAux_zeros (s.takeWhile (fun c => c == 48))
        (fun c hc => by simpa using List.mem_takeWhile_imp hc)
      have hval : digitsValAux 16 hexDigVal s 0 =
          digitsValAux 16 hexDigVal (d0 :: rest) 0 := by
        conv_lhs => rw [← hsplit, hdw]
        rw [digitsValAux_append_eq, hz]
      have hbound : ∀ w, digitsValAux 16 hexDigVal s 0 = some w →
          16 ^ 16 ≤ w := by
        intro w hw
        rw [hval] at hw
        unfold digitsValAux at hw
        rw [hdv] at hw
        have hlow := digitsValAux_lower hexDigVal rest (0 * 16 + d) w hw
        have h0d : 0 * 16 + d = d := by omega
        rw [h0d] at hlow
        have hrest : 16 ≤ rest.length := by
          have : (d0 :: rest).length = rest.length + 1 := List.length_cons d0 rest
          rw [hdw] at hlen
          omega
        have hpow : (16:Nat) ^ 16 ≤ 16 ^ rest.length :=
          Nat.pow_le_pow_right (by omega) hrest
        have hds : 16 ^ rest.length ≤ d * 16 ^ rest.length :=
          Nat.le_mul_of_pos_left _ (by omega)
        exact le_trans (le_trans hpow hds) hlow
      unfold mainHexCheck parseIntHex64 goParseInt
      rw [parseSign_all_hex s hne hhex]
      rcases s with _ | ⟨c1, r1⟩
      · exact absurd rfl hne
      · rcases hda : digitsValAux 16 hexDigVal (c1 :: r1) 0 with _ | w
        · simp [hda]
        · have h16 : (16:Nat) ^ 16 = 18446744073709551616 := by norm_num
          have hw := hbound w hda
          rw [h16] at hw
          simp [hda]
          omega

/-- Counterexample to C10 as stated: seventeen `'0'` characters form a
prefix longer than 16 hex digits, yet the check accepts it (its value,
0, fits in int64). -/
theorem mainHexCheck_accepts_17_zeros :
    16 < (List.replicate 17 48).length ∧
    (∀ c ∈ List.replicate 17 48, isHexDigitByte c = true) ∧
    mainHexCheck (List.replicate 17 48) = true := by decide

/-- Witness for C10: a string of one `'0'` then seventeen `'1'`s has 17
significant digits and is rejected; the empty string is rejected. -/
theorem mainHexCheck_significant_digits_witness :
    mainHexCheck (48 :: List.replicate 17 49) = false ∧ mainHexCheck [] = false :=
  ⟨mainHexCheck_significant_digits.1 (48 :: List.replicate 17 49) (by decide)
      (by decide),
    mainHexCheck_significant_digits.2.1⟩

/-! ## Date codec lemmas -/

theorem splitLines_ne_nil (l : List Nat) : splitLines l ≠ [] := by
  cases l with
  | nil => simp [splitLines]
  | cons c r =>
      unfold splitLines
      split
      · simp
      · split <;> simp

theorem joinLines_splitLines (l : List Nat) : joinLines (splitLines l) = l := by
  induction l with
  | nil => rfl
  | cons c r ih =>
      unfold splitLines
      rcases hsp : splitLines r with _ | ⟨h1, t1⟩
      · exact absurd hsp (splitLines_ne_nil r)
      · rw [hsp] at ih
        show joinLines (if c = 10 then [] :: h1 :: t1 else (c :: h1) :: t1) = c :: r
        by_cases hc : c = 10
        · rw [if_pos hc]
          show [] ++ 10 :: joinLines (h1 :: t1) = c :: r
          rw [List.nil_append, ih, hc]
        · rw [if_neg hc]
          rcases t1 with _ | ⟨t2, t3⟩
          · show c :: h1 = c :: r
            rw [show joinLines [h1] = h1 from rfl] at ih
            rw [ih]
          · show (c :: h1) ++ 10 :: joinLines (t2 :: t3) = c :: r
            rw [List.cons_append]
            rw [show h1 ++ 10 :: joinLines (t2 :: t3) = joinLines (h1 :: t2 :: t3) from rfl]
            rw [ih]

theorem findGtSp_bounds (label ln : List Nat) (q : Nat)
    (h : findGtSp label ln = some q) :
    label.length + 1 ≤ q ∧ q + 3 ≤ ln.length := by
  unfold findGtSp at h
  rcases List.getLast?_eq_some_iff.1 h with ⟨ys, hys⟩
  have hq : q ∈ List.filter
      (fun q => decide (label.length + 1 ≤ q) && decide (q + 3 ≤ ln.length) &&
        (ln.getD q 0 == 62) && (ln.getD (q+1) 0 == 32)) (List.range ln.length) := by
    rw [hys]
    exact List.mem_append_right ys (by simp)
  have hp := (List.mem_filter.1 hq).2
  simp only [Bool.and_eq_true, decide_eq_true_eq] at hp
  exact ⟨hp.1.1.1, hp.1.1.2⟩

theorem getDateLines_locate (label : List Nat) :
    ∀ (lines : List (List Nat)) (off idx : Nat) (v : List Nat),
      getDateLines label off lines = some (idx, v) →
      ∃ pre rest, joinLines lines = pre ++ (v ++ rest) ∧ idx = off + pre.length := by
  intro lines
  induction lines with
  | nil => intro off idx v h; simp [getDateLines] at h
  | cons ln rest ih =>
      intro off idx v h
      unfold getDateLines at h
      rcases hm : (if startsWithB ln label then findGtSp label ln else none) with _ | q
      · rw [hm] at h
        rcases rest with _ | ⟨r1, r2⟩
        · simp [getDateLines] at h
        · rcases ih (off + ln.length + 1) idx v h with ⟨pre, tail, hjoin, hidx⟩
          refine ⟨ln ++ 10 :: pre, tail, ?_, ?_⟩
          · show ln ++ 10 :: joinLines (r1 :: r2) = (ln ++ 10 :: pre) ++ (v ++ tail)
            rw [hjoin]
            simp
          · rw [hidx]
            simp
            omega
      · rw [hm] at h
        simp only [Option.some.injEq, Prod.mk.injEq] at h
        have hgt : findGtSp label ln = some q := by
          by_cases hsw : startsWithB ln label
          · rwa [if_pos hsw] at hm
          · rw [if_neg hsw] at hm; exact absurd hm (by simp)
        have hb := findGtSp_bounds label ln q hgt
        have hq2 : q + 2 ≤ ln.length := by omega
        have hpre : (ln.take (q+2)).length = q + 2 := by
          rw [List.length_take]
          omega
        obtain ⟨hidx, hv⟩ := h
        subst hv
        subst hidx
        rcases rest with _ | ⟨r1, r2⟩
        · refine ⟨ln.take (q+2), [], ?_, ?_⟩
          · show ln = ln.take (q+2) ++ (ln.drop (q+2) ++ [])
            rw [List.append_nil, List.take_append_drop]
          · rw [hpre]
            omega
        · refine ⟨ln.take (q+2), 10 :: joinLines (r1 :: r2), ?_, ?_⟩
          · show ln ++ 10 :: joinLines (r1 :: r2)
              = ln.take (q+2) ++ (ln.drop (q+2) ++ (10 :: joinLines (r1 :: r2)))
            rw [← List.append_assoc, List.take_append_drop]
          · rw [hpre]
            omega

theorem idxOf32_spec :
    ∀ (v : List Nat) (sp : Nat), idxOf32 v = some sp →
      sp < v.length ∧ v[sp]? = some 32 := by
  intro v
  induction v with
  | nil => intro sp h; simp [idxOf32] at h
  | cons c r ih =>
      intro sp h
      unfold idxOf32 at h
      by_cases hc : c = 32
      · rw [if_pos hc] at h
        simp only [Option.some.injEq] at h
        subst h
        simp [hc]
      · rw [if_neg hc] at h
        rcases hr : idxOf32 r with _ | sp'
        · rw [hr] at h; simp at h
        · rw [hr] at h
          simp at h
          subst h
          rcases ih sp' hr with ⟨h1, h2⟩
          constructor
          · simp; omega
          · simpa using h2

/-- C6 (amended): whenever `getDate` succeeds on a record, the returned
index is the byte offset where the matched field begins (the record from
that offset starts with the captured field `v`), the epoch seconds are
the signed base-10 64-bit parse of `v` up to its first space, the
timezone is the verbatim suffix after that space — and formatting the
result back as `"<epochSeconds> <timezone>"` reproduces the matched
field exactly whenever the numeric portion of the field is the canonical
decimal rendering of its value (with a padded or signed numeral such as
`"007"` the parse still succeeds but the round-trip alters the text). -/
theorem getDate_parse_format (h label : List Nat) (d : date) (idx : Nat)
    (hgd : getDate h label = some (d, idx)) :
    ∃ v rest sp, h.drop idx = v ++ rest ∧
      idxOf32 v = some sp ∧
      parseInt10 (v.take sp) = some d.n ∧
      d.tz = v.drop (sp + 1) ∧
      (renderInt d.n = v.take sp → date.String d = v) := by
  unfold getDate at hgd
  rcases hgl : getDateLines label 0 (splitLines h) with _ | ⟨idx0, v⟩
  · rw [hgl] at hgd; simp at hgd
  · rw [hgl] at hgd
    have hgd2 : (match getDateField v with
        | none => none
        | some d0 => some (d0, idx0)) = some (d, idx) := hgd
    rcases hgf : getDateField v with _ | d0
    · rw [hgf] at hgd2; simp at hgd2
    · rw [hgf] at hgd2
      simp only [Option.some.injEq, Prod.mk.injEq] at hgd2
      obtain ⟨rfl, rfl⟩ := hgd2
      unfold getDateField at hgf
      rcases hsp : idxOf32 v with _ | sp
      · rw [hsp] at hgf; simp at hgf
      · rw [hsp] at hgf
        have hgf2 : (match parseInt10 (v.take sp) with
            | none => none
            | some n => some (date.mk n (v.drop (sp + 1)))) = some d0 := hgf
        rcases hpi : parseInt10 (v.take sp) with _ | n
        · rw [hpi] at hgf2; simp at hgf2
        · rw [hpi] at hgf2
          simp only [Option.some.injEq] at hgf2
          rcases getDateLines_locate label (splitLines h) 0 idx0 v hgl with
            ⟨pre, tail, hjoin, hidx⟩
          rw [joinLines_splitLines] at hjoin
          refine ⟨v, tail, sp, ?_, hsp, ?_, ?_, ?_⟩
          · rw [hjoin]
            have hlenpre : pre.length = idx0 := by omega
            exact List.drop_left' hlenpre
          · rw [← hgf2]
            exact hpi
          · rw [← hgf2]
          · intro hren
            have hsp' := idxOf32_spec v sp hsp
            have hv : v = v.take sp ++ v.drop sp := (List.take_append_drop sp v).symm
            have hdrop : v.drop sp = 32 :: v.drop (sp+1) := by
              rw [List.drop_eq_getElem_cons hsp'.1]
              congr 1
              have h32 := hsp'.2
              rw [List.getElem?_eq_getElem hsp'.1] at h32
              simpa using h32
            have hren2 : renderInt n = v.take sp := by
              rw [← hgf2] at hren
              exact hren
            rw [← hgf2]
            show renderInt n ++ 32 :: v.drop (sp+1) = v
            rw [hren2]
            conv_rhs => rw [hv, hdrop]

/-- Counterexample to C6 as stated: in `recPad` the matched field text
is `"007 +0000"`; parsing succeeds (epoch 7, timezone `"+0000"`), but
formatting the parsed timestamp back gives `"7 +0000"`, which is not the
original matched field text. -/
theorem getDate_roundTrip_cex :
    getDate recPad (strB "author") = some (⟨7, strB "+0000"⟩, 13) ∧
    recPad.drop 13 = strB "007 +0000" ∧
    date.String (date.mk 7 (strB "+0000")) ≠ recPad.drop 13 := by decide

/-- Witness for C6 on a record with a canonical numeral. -/
theorem getDate_parse_format_witness :
    getDate recCan (strB "author") = some (⟨75, strB "+0000"⟩, 13) ∧
    (∃ v rest sp, recCan.drop 13 = v ++ rest ∧
      idxOf32 v = some sp ∧
      parseInt10 (v.take sp) = some (date.mk 75 (strB "+0000")).n ∧
      (date.mk 75 (strB "+0000")).tz = v.drop (sp + 1) ∧
      (renderInt (date.mk 75 (strB "+0000")).n = v.take sp →
        date.String (date.mk 75 (strB "+0000")) = v)) :=
  ⟨by decide,
    getDate_parse_format recCan (strB "author") (date.mk 75 (strB "+0000")) 13
      (by decide)⟩

/-! ## Worker lemmas -/

theorem tryDates_fst (aD cD : date) (t : Try) :
    (tryDates aD cD t).1 = date.mk (wrap64 (aD.n - t.authorBehind)) aD.tz := rfl

theorem tryDates_snd (aD cD : date) (t : Try) :
    (tryDates aD cD t).2 = date.mk (wrap64 (cD.n - t.commitBehind)) cD.tz := rfl

theorem sha1_length (m : List Nat) : (sha1 m).length = 20 := by
  show (match sha1Process (wordsBE (sha1Pad m)) ((sha1Pad m).length / 64) with
    | (h0, h1, h2, h3, h4) =>
        toBytesBE 4 h0 ++ toBytesBE 4 h1 ++ toBytesBE 4 h2 ++
          toBytesBE 4 h3 ++ toBytesBE 4 h4).length = 20
  rcases sha1Process (wordsBE (sha1Pad m)) ((sha1Pad m).length / 64) with
    ⟨h0, h1, h2, h3, h4⟩
  simp [toBytesBE_length]

theorem writeTimestamps_absorb (blob0 : List Nat) (a c : Nat) (an cn an2 cn2 : Int)
    (la lc : Nat)
    (h1 : (renderInt an).length = la) (h2 : (renderInt cn).length = lc)
    (h3 : (renderInt an2).length = la) (h4 : (renderInt cn2).length = lc)
    (hlay : a + la ≤ c) :
    writeTimestamps (writeTimestamps blob0 a c an cn) a c an2 cn2
      = writeTimestamps blob0 a c an2 cn2 := by
  unfold writeTimestamps
  rw [← appendAt_comm (appendAt blob0 a (renderInt an)) a c (renderInt an2)
      (renderInt cn) (by omega)]
  rw [appendAt_absorb blob0 a (renderInt an) (renderInt an2) (by omega)]
  rw [appendAt_absorb (appendAt blob0 a (renderInt an2)) c (renderInt cn)
      (renderInt cn2) (by omega)]

theorem bruteForceLoop_step (want : List Nat) (a c : Nat) (aD cD : date)
    (b : List Nat) (t : Try) (ts : List Try) :
    bruteForceLoop want a c aD cD b (t :: ts)
      = (if startsWithB (hexDigestOf (sha1 (writeTimestamps b a c
            (tryDates aD cD t).1.n (tryDates aD cD t).2.n))) want
         then some (solution.mk (tryDates aD cD t).1 (tryDates aD cD t).2)
         else bruteForceLoop want a c aD cD (writeTimestamps b a c
            (tryDates aD cD t).1.n (tryDates aD cD t).2.n) ts) := rfl

theorem bruteForceLoop_solution_shape (want : List Nat) (a c : Nat) (aD cD : date) :
    ∀ (ts : List Try) (b : List Nat) (s : solution),
      bruteForceLoop want a c aD cD b ts = some s →
      ∃ t ∈ ts, s = solution.mk (tryDates aD cD t).1 (tryDates aD cD t).2 := by
  intro ts
  induction ts with
  | nil => intro b s h; simp [bruteForceLoop] at h
  | cons t ts ih =>
      intro b s h
      rw [bruteForceLoop_step] at h
      by_cases hm : startsWithB (hexDigestOf (sha1 (writeTimestamps b a c
          (tryDates aD cD t).1.n (tryDates aD cD t).2.n))) want = true
      · rw [if_pos hm] at h
        simp only [Option.some.injEq] at h
        exact ⟨t, by simp, h.symm⟩
      · rw [if_neg hm] at h
        rcases ih _ s h with ⟨t', ht', hs⟩
        exact ⟨t', by simp [ht'], hs⟩

theorem bruteForceLoop_sound (want : List Nat) (a c : Nat) (aD cD : date)
    (la lc : Nat) (blob0 : List Nat) (hlay : a + la ≤ c) :
    ∀ (ts : List Try) (b : List Nat),
      (b = blob0 ∨ ∃ an cn, (renderInt an).length = la ∧ (renderInt cn).length = lc ∧
        b = writeTimestamps blob0 a c an cn) →
      (∀ t ∈ ts, (renderInt (wrap64 (aD.n - t.authorBehind))).length = la ∧
        (renderInt (wrap64 (cD.n - t.commitBehind))).length = lc) →
      (∀ s, bruteForceLoop want a c aD cD b ts = some s →
        (∃ t ∈ ts, s = solution.mk (tryDates aD cD t).1 (tryDates aD cD t).2) ∧
        startsWithB (hexDigestOf (sha1 (writeTimestamps blob0 a c
          s.author.n s.committer.n))) want = true) ∧
      ((∀ t ∈ ts, startsWithB (hexDigestOf (sha1 (writeTimestamps blob0 a c
          (wrap64 (aD.n - t.authorBehind)) (wrap64 (cD.n - t.commitBehind))))) want
          = false) →
        bruteForceLoop want a c aD cD b ts = none) := by
  intro ts
  induction ts with
  | nil =>
      intro b _ _
      constructor
      · intro s h
        simp [bruteForceLoop] at h
      · intro _
        rfl
  | cons t ts ih =>
      intro b hb hts
      have hlen := hts t (by simp)
      have hblob2 : writeTimestamps b a c (tryDates aD cD t).1.n (tryDates aD cD t).2.n
          = writeTimestamps blob0 a c
            (wrap64 (aD.n - t.authorBehind)) (wrap64 (cD.n - t.commitBehind)) := by
        rw [tryDates_fst, tryDates_snd]
        rcases hb with rfl | ⟨an, cn, hl1, hl2, rfl⟩
        · rfl
        · exact writeTimestamps_absorb blob0 a c an cn _ _ la lc hl1 hl2
            hlen.1 hlen.2 hlay
      constructor
      · intro s h
        rw [bruteForceLoop_step] at h
        by_cases hm : startsWithB (hexDigestOf (sha1 (writeTimestamps b a c
            (tryDates aD cD t).1.n (tryDates aD cD t).2.n))) want = true
        · rw [if_pos hm] at h
          simp only [Option.some.injEq] at h
          subst h
          refine ⟨⟨t, by simp, rfl⟩, ?_⟩
          rw [hblob2] at hm
          rw [tryDates_fst, tryDates_snd]
          exact hm
        · rw [if_neg hm] at h
          have hinv : writeTimestamps b a c (tryDates aD cD t).1.n (tryDates aD cD t).2.n
              = blob0 ∨ ∃ an cn, (renderInt an).length = la ∧ (renderInt cn).length = lc ∧
                writeTimestamps b a c (tryDates aD cD t).1.n (tryDates aD cD t).2.n
                  = writeTimestamps blob0 a c an cn :=
            Or.inr ⟨_, _, hlen.1, hlen.2, hblob2⟩
          rcases (ih _ hinv (fun t' ht' => hts t' (by simp [ht']))).1 s h with
            ⟨⟨t', ht', hs⟩, hdig⟩
          exact ⟨⟨t', by simp [ht'], hs⟩, hdig⟩
      · intro hnone
        rw [bruteForceLoop_step]
        have hmf : startsWithB (hexDigestOf (sha1 (writeTimestamps b a c
            (tryDates aD cD t).1.n (tryDates aD cD t).2.n))) want = false := by
          rw [hblob2]
          exact hnone t (by simp)
        rw [hmf]
        simp only [Bool.false_eq_true, if_false]
        have hinv : writeTimestamps b a c (tryDates aD cD t).1.n (tryDates aD cD t).2.n
            = blob0 ∨ ∃ an cn, (renderInt an).length = la ∧ (renderInt cn).length = lc ∧
              writeTimestamps b a c (tryDates aD cD t).1.n (tryDates aD cD t).2.n
                = writeTimestamps blob0 a c an cn :=
          Or.inr ⟨_, _, hlen.1, hlen.2, hblob2⟩
        exact (ih _ hinv (fun t' ht' => hts t' (by simp [ht']))).2
          (fun t' ht' => hnone t' (by simp [ht']))

theorem bruteForce_unfold (obj want : List Nat) (ts : List Try) (aD cD : date)
    (adatei cdatei : Nat)
    (hA : getDate (commitBlob obj) (strB "author") = some (aD, adatei))
    (hC : getDate (commitBlob obj) (strB "committer") = some (cD, cdatei)) :
    bruteForce obj want ts
      = bruteForceLoop (toLowerB want) adatei cdatei aD cD (commitBlob obj) ts := by
  unfold bruteForce
  show (match getDate (commitBlob obj) (strB "author"),
      getDate (commitBlob obj) (strB "committer") with
    | some (aD, adatei), some (cD, cdatei) =>
        bruteForceLoop (toLowerB want) adatei cdatei aD cD (commitBlob obj) ts
    | _, _ => none)
    = bruteForceLoop (toLowerB want) adatei cdatei aD cD (commitBlob obj) ts
  rw [hA, hC]

/-- C1 (amended): provided every candidate the worker attempts renders
both epochs at the same widths as a fixed pair of run widths (`la` at
the author offset, `lc` at the committer offset, author run before the
committer run) — whenever the worker reports a solution, rebuilding the
record with the reported timestamps (original timezones, shifted epoch
seconds) yields a 20-byte digest whose hex rendering starts with the
requested prefix, compared case-insensitively; and a worker supplied
only candidates whose resulting digests do not match reports nothing
before cancellation.  (Without the fixed-width proviso a candidate can
leave stale digits in the buffer and the reported solution need not
verify — see the counterexample.) -/
theorem bruteForce_digest_matches (obj want : List Nat) (ts : List Try)
    (aD cD : date) (adatei cdatei la lc : Nat)
    (hA : getDate (commitBlob obj) (strB "author") = some (aD, adatei))
    (hC : getDate (commitBlob obj) (strB "committer") = some (cD, cdatei))
    (hts : ∀ t ∈ ts, (renderInt (wrap64 (aD.n - t.authorBehind))).length = la ∧
        (renderInt (wrap64 (cD.n - t.commitBehind))).length = lc)
    (hlay : adatei + la ≤ cdatei) :
    (∀ s, bruteForce obj want ts = some s →
      (sha1 (writeTimestamps (commitBlob obj) adatei cdatei
        s.author.n s.committer.n)).length = 20 ∧
      startsWithB (hexDigestOf (sha1 (writeTimestamps (commitBlob obj) adatei cdatei
        s.author.n s.committer.n))) (toLowerB want) = true) ∧
    ((∀ t ∈ ts, startsWithB (hexDigestOf (sha1 (writeTimestamps (commitBlob obj)
        adatei cdatei (wrap64 (aD.n - t.authorBehind))
        (wrap64 (cD.n - t.commitBehind))))) (toLowerB want) = false) →
      bruteForce obj want ts = none) := by
  have hbf := bruteForce_unfold obj want ts aD cD adatei cdatei hA hC
  have hloop := bruteForceLoop_sound (toLowerB want) adatei cdatei aD cD la lc
      (commitBlob obj) hlay ts (commitBlob obj) (Or.inl rfl) hts
  constructor
  · intro s h
    rw [hbf] at h
    rcases hloop.1 s h with ⟨_, hdig⟩
    exact ⟨sha1_length _, hdig⟩
  · intro hnone
    rw [hbf]
    exact hloop.2 hnone

/-- C4: for every candidate a worker processes, the attempted timestamps
are `newAuthorEpoch = originalAuthorEpoch − authorShift` and
`newCommitterEpoch = originalCommitterEpoch − committerShift` (signed
64-bit subtraction), with both timezone suffixes carried through
unchanged from the parsed originals: any reported solution has exactly
this shape for some consumed candidate. -/
theorem bruteForce_shift_semantics (obj want : List Nat) (ts : List Try)
    (aD cD : date) (adatei cdatei : Nat)
    (hA : getDate (commitBlob obj) (strB "author") = some (aD, adatei))
    (hC : getDate (commitBlob obj) (strB "committer") = some (cD, cdatei)) :
    ∀ s, bruteForce obj want ts = some s →
      ∃ t ∈ ts, s.author = date.mk (wrap64 (aD.n - t.authorBehind)) aD.tz ∧
        s.committer = date.mk (wrap64 (cD.n - t.commitBehind)) cD.tz := by
  intro s h
  rw [bruteForce_unfold obj want ts aD cD adatei cdatei hA hC] at h
  rcases bruteForceLoop_solution_shape (toLowerB want) adatei cdatei aD cD ts
    (commitBlob obj) s h with ⟨t, ht, hs⟩
  refine ⟨t, ht, ?_, ?_⟩
  · rw [hs]
    exact tryDates_fst aD cD t
  · rw [hs]
    exact tryDates_snd aD cD t

/-- Counterexample to C1 as stated: in `objNeg` the author field is
`"-5 +0000"`.  The first candidate (author shift 10) writes the longer
rendering `"-15"`, overwriting the space after the run; the second
candidate (shift 0) writes `"-5"`, leaving a stale `'5'` in the buffer.
The worker hashes the corrupted buffer, matches prefix `"d"`, and
reports a solution — but the record rebuilt from the reported
timestamps has a digest that does not start with `"d"`. -/
theorem bruteForce_stale_digit_cex :
    getDate (commitBlob objNeg) (strB "author") = some (⟨-5, strB "+0000"⟩, 23) ∧
    getDate (commitBlob objNeg) (strB "committer") = some (⟨5, strB "+0000"⟩, 46) ∧
    bruteForce objNeg [100] [Try.mk 0 10, Try.mk 0 0]
      = some (solution.mk (date.mk (-5) (strB "+0000")) (date.mk 5 (strB "+0000"))) ∧
    startsWithB (hexDigestOf (sha1 (writeTimestamps (commitBlob objNeg) 23 46 (-5) 5)))
      (toLowerB [100]) = false := by decide

/-- Witness for C1 on `objTen` (all renderings ten digits wide): the
worker reports a solution for prefix `"f"` and the rebuilt record's
digest verifies the prefix. -/
theorem bruteForce_digest_matches_witness :
    getDate (commitBlob objTen) (strB "author")
      = some (⟨1000000000, strB "+0000"⟩, 23) ∧
    getDate (commitBlob objTen) (strB "committer")
      = some (⟨1000000000, strB "+0000"⟩, 54) ∧
    23 + 10 ≤ 54 ∧
    startsWithB (hexDigestOf (sha1 (writeTimestamps (commitBlob objTen) 23 54
      (solution.mk (date.mk 1000000000 (strB "+0000"))
        (date.mk 1000000000 (strB "+0000"))).author.n
      (solution.mk (date.mk 1000000000 (strB "+0000"))
        (date.mk 1000000000 (strB "+0000"))).committer.n)))
      (toLowerB [102]) = true :=
  ⟨by decide, by decide, by decide,
    ((bruteForce_digest_matches objTen [102] [Try.mk 0 0]
        (date.mk 1000000000 (strB "+0000")) (date.mk 1000000000 (strB "+0000"))
        23 54 10 10 (by decide) (by decide) (by decide) (by decide)).1
      (solution.mk (date.mk 1000000000 (strB "+0000"))
        (date.mk 1000000000 (strB "+0000")))
      (by decide)).2⟩

/-- Witness for C4 on `objTen`: the reported solution's timestamps are
the originals shifted by the consumed candidate, timezones unchanged. -/
theorem bruteForce_shift_semantics_witness :
    ∃ t ∈ [Try.mk 0 0],
      (solution.mk (date.mk 1000000000 (strB "+0000"))
        (date.mk 1000000000 (strB "+0000"))).author
        = date.mk (wrap64 ((date.mk 1000000000 (strB "+0000")).n - t.authorBehind))
            (date.mk 1000000000 (strB "+0000")).tz ∧
      (solution.mk (date.mk 1000000000 (strB "+0000"))
        (date.mk 1000000000 (strB "+0000"))).committer
        = date.mk (wrap64 ((date.mk 1000000000 (strB "+0000")).n - t.commitBehind))
            (date.mk 1000000000 (strB "+0000")).tz :=
  bruteForce_shift_semantics objTen [102] [Try.mk 0 0]
    (date.mk 1000000000 (strB "+0000")) (date.mk 1000000000 (strB "+0000"))
    23 54 (by decide) (by decide)
    (solution.mk (date.mk 1000000000 (strB "+0000"))
      (date.mk 1000000000 (strB "+0000")))
    (by decide)

/-! ## Coordinator lemmas -/

/-- C8: in every run of the coordinator from its initial state, at most
one Solution is delivered through the result channel; a complete run is
exactly one delivery followed by the cancellation broadcast, and from
the finished state no further worker result is awaited or inspected
(there is no step out of it). -/
theorem coordinator_at_most_one (tr : List CoordEvent) (σ : CoordState)
    (h : coordSteps CoordState.waiting tr σ) :
    tr.countP isDeliver ≤ 1 ∧
    (tr = [] ∧ σ = CoordState.waiting ∨
     (∃ s, tr = [CoordEvent.deliver s] ∧ σ = CoordState.gotWinner s) ∨
     (∃ s, tr = [CoordEvent.deliver s, CoordEvent.cancelBroadcast] ∧
        σ = CoordState.finished s)) := by
  cases h with
  | nil => exact ⟨by simp, Or.inl ⟨rfl, rfl⟩⟩
  | cons hstep hrest =>
      cases hstep with
      | recv s =>
          cases hrest with
          | nil =>
              refine ⟨?_, Or.inr (Or.inl ⟨s, rfl, rfl⟩)⟩
              simp [List.countP_cons, List.countP_nil, isDeliver]
          | cons hstep2 hrest2 =>
              cases hstep2 with
              | cancel =>
                  cases hrest2 with
                  | nil =>
                      refine ⟨?_, Or.inr (Or.inr ⟨s, rfl, rfl⟩)⟩
                      simp [List.countP_cons, List.countP_nil, isDeliver]
                  | cons hstep3 _ => cases hstep3

/-- Witness for C8: a concrete complete run delivering one solution. -/
theorem coordinator_at_most_one_witness :
    ([CoordEvent.deliver (solution.mk (date.mk 0 []) (date.mk 0 [])),
      CoordEvent.cancelBroadcast].countP isDeliver ≤ 1) :=
  (coordinator_at_most_one
    [CoordEvent.deliver (solution.mk (date.mk 0 []) (date.mk 0 [])),
      CoordEvent.cancelBroadcast]
    (CoordState.finished (solution.mk (date.mk 0 []) (date.mk 0 [])))
    (coordSteps.cons (coordStep.recv (solution.mk (date.mk 0 []) (date.mk 0 [])))
      (coordSteps.cons (coordStep.cancel (solution.mk (date.mk 0 []) (date.mk 0 [])))
        (coordSteps.nil _)))).1
